import Mathlib

/-!
# Verification of `metal/label_model/class_balance.py`

A shallow embedding of the `ClassBalanceModel` class over exact rationals.

Conventions used throughout:

* The model's cardinality parameters are the number of true classes `k` and an
  abstain offset `o` (`o = 1` when `abstains=True`, `o = 0` otherwise).  The
  labeling-function cardinality is `k_lf = k + o` and the smallest emitted
  label is `k_0 = 1 - o`, exactly as computed in `__init__`.
* A label matrix `L` is a function `Fin n → Fin m → ℤ` (an `n × m` integer
  matrix).  Tensors are curried functions over `Fin` index types; all numeric
  entries are `ℚ` (exact rational stand-ins for the floats in the source).
* `np.argmax` / `counts.argmax()` return the *first* index attaining the
  maximum; `np.unique(..., axis=0)` returns the lexicographically sorted list
  of distinct rows; both are modelled operationally below.
* The cube root `p_y ** (1/3)` computed by the source in floating point is
  modelled by an explicit parameter `r : Fin k → ℚ`; theorems that depend on
  its meaning carry the hypothesis `r y ^ 3 = p_y q y` (with `0 < r y`), which
  pins `r` down uniquely because cubing is injective on `ℚ`.
-/

namespace Metal

/-! ## 4.1 Overlap statistics builder (`_get_overlaps_tensor`) -/

/-- Validity of a label matrix: every entry lies in `{k_0, …, k}` where
`k_0 = 1 - o` (so `{0, …, k}` with abstains, `{1, …, k}` without). -/
def ValidL (k o : ℕ) {n m : ℕ} (L : Fin n → Fin m → ℤ) : Prop :=
  ∀ e i, (1 - (o : ℤ)) ≤ L e i ∧ L e i ≤ (k : ℤ)

/-- The indicator tensor `LY` built by
`np.array([np.where(L == y, 1, 0) for y in range(self.k_0, self.k + 1)])`:
`LY y e i = 1` iff `L e i = k_0 + y`. -/
def LY (k o : ℕ) {n m : ℕ} (L : Fin n → Fin m → ℤ) (y : Fin (k + o))
    (e : Fin n) (i : Fin m) : ℚ :=
  if L e i = (1 - (o : ℤ)) + (y : ℤ) then 1 else 0

/-- The three-way overlaps tensor
`O = np.einsum("abc,dbe,fbg->cegadf", LY, LY, LY) / n`;
the output axis order `cegadf` puts the three source axes before the three
value axes, so
`O i j l a b c = (∑ e, LY a e i * LY b e j * LY c e l) / n`. -/
def overlaps (k o : ℕ) {n m : ℕ} (L : Fin n → Fin m → ℤ)
    (i j l : Fin m) (a b c : Fin (k + o)) : ℚ :=
  (∑ e : Fin n, LY k o L a e i * LY k o L b e j * LY k o L c e l) / n

lemma LY_nonneg (k o : ℕ) {n m : ℕ} (L : Fin n → Fin m → ℤ)
    (y : Fin (k + o)) (e : Fin n) (i : Fin m) : 0 ≤ LY k o L y e i := by
  unfold LY; split <;> norm_num

lemma LY_le_one (k o : ℕ) {n m : ℕ} (L : Fin n → Fin m → ℤ)
    (y : Fin (k + o)) (e : Fin n) (i : Fin m) : LY k o L y e i ≤ 1 := by
  unfold LY; split <;> norm_num

/-- On a valid label matrix, each column of indicators sums to `1`:
every entry of `L` equals exactly one emitted value. -/
lemma sum_LY (k o : ℕ) {n m : ℕ} {L : Fin n → Fin m → ℤ}
    (hL : ValidL k o L) (e : Fin n) (i : Fin m) :
    (∑ y : Fin (k + o), LY k o L y e i) = 1 := by
  obtain ⟨h₁, h₂⟩ := hL e i
  have hd0 : (0 : ℤ) ≤ L e i - (1 - (o : ℤ)) := by omega
  set d : ℕ := (L e i - (1 - (o : ℤ))).toNat with hd
  have hdk : d < k + o := by
    have : L e i - (1 - (o : ℤ)) ≤ (k : ℤ) + (o : ℤ) - 1 := by omega
    omega
  have key : ∀ y : Fin (k + o),
      (L e i = (1 - (o : ℤ)) + (y : ℤ)) ↔ y = ⟨d, hdk⟩ := by
    intro y
    constructor
    · intro h
      apply Fin.ext
      have : (y : ℤ) = L e i - (1 - (o : ℤ)) := by omega
      simp only [hd]
      omega
    · intro h
      subst h
      simp only [hd]
      omega
  unfold LY
  calc (∑ y : Fin (k + o), if L e i = (1 - (o : ℤ)) + (y : ℤ) then (1 : ℚ) else 0)
      = ∑ y : Fin (k + o), if y = ⟨d, hdk⟩ then (1 : ℚ) else 0 := by
        exact Finset.sum_congr rfl fun y _ => if_congr (key y) rfl rfl
    _ = 1 := by simp

/-- Each entry of the overlaps tensor is nonnegative. -/
lemma overlaps_nonneg (k o : ℕ) {n m : ℕ} (L : Fin n → Fin m → ℤ)
    (i j l : Fin m) (a b c : Fin (k + o)) : 0 ≤ overlaps k o L i j l a b c := by
  unfold overlaps
  apply div_nonneg _ (by positivity)
  apply Finset.sum_nonneg
  intro e _
  have := LY_nonneg k o L a e i
  have := LY_nonneg k o L b e j
  have := LY_nonneg k o L c e l
  positivity

/-- Each entry of the overlaps tensor is at most `1` (when `n > 0`). -/
lemma overlaps_le_one (k o : ℕ) {n m : ℕ} (hn : 0 < n) (L : Fin n → Fin m → ℤ)
    (i j l : Fin m) (a b c : Fin (k + o)) : overlaps k o L i j l a b c ≤ 1 := by
  unfold overlaps
  rw [div_le_one (by exact_mod_cast hn)]
  calc (∑ e : Fin n, LY k o L a e i * LY k o L b e j * LY k o L c e l)
      ≤ ∑ _e : Fin n, (1 : ℚ) := by
        apply Finset.sum_le_sum
        intro e _
        have h1 := LY_nonneg k o L a e i
        have h2 := LY_nonneg k o L b e j
        have h3 := LY_nonneg k o L c e l
        have h4 := LY_le_one k o L a e i
        have h5 := LY_le_one k o L b e j
        have h6 := LY_le_one k o L c e l
        calc LY k o L a e i * LY k o L b e j * LY k o L c e l
            ≤ 1 * 1 * 1 := by
              apply mul_le_mul (mul_le_mul h4 h5 h2 (by norm_num)) h6 h3 (by norm_num)
          _ = 1 := by norm_num
    _ = n := by simp

/-- For a fixed source triple, the overlaps tensor sums to `1` over all
value triples (when `n > 0` and `L` is valid): it is a joint distribution. -/
lemma overlaps_sum_one (k o : ℕ) {n m : ℕ} (hn : 0 < n)
    {L : Fin n → Fin m → ℤ} (hL : ValidL k o L) (i j l : Fin m) :
    (∑ a : Fin (k + o), ∑ b : Fin (k + o), ∑ c : Fin (k + o),
      overlaps k o L i j l a b c) = 1 := by
  unfold overlaps
  have expand : ∀ e : Fin n,
      (∑ a : Fin (k + o), LY k o L a e i) * (∑ b : Fin (k + o), LY k o L b e j) *
        (∑ c : Fin (k + o), LY k o L c e l)
      = ∑ a : Fin (k + o), ∑ b : Fin (k + o), ∑ c : Fin (k + o),
          LY k o L a e i * LY k o L b e j * LY k o L c e l := by
    intro e
    rw [Finset.sum_mul_sum, Finset.sum_mul]
    refine Finset.sum_congr rfl fun a _ => ?_
    rw [Finset.sum_mul]
    refine Finset.sum_congr rfl fun b _ => ?_
    rw [Finset.mul_sum]
  have hfact : (∑ a : Fin (k + o), ∑ b : Fin (k + o), ∑ c : Fin (k + o),
      ∑ e : Fin n, LY k o L a e i * LY k o L b e j * LY k o L c e l)
      = ∑ e : Fin n, (∑ a : Fin (k + o), LY k o L a e i) *
          (∑ b : Fin (k + o), LY k o L b e j) *
          (∑ c : Fin (k + o), LY k o L c e l) := by
    calc (∑ a : Fin (k + o), ∑ b : Fin (k + o), ∑ c : Fin (k + o),
        ∑ e : Fin n, LY k o L a e i * LY k o L b e j * LY k o L c e l)
        = ∑ a : Fin (k + o), ∑ b : Fin (k + o), ∑ e : Fin n, ∑ c : Fin (k + o),
            LY k o L a e i * LY k o L b e j * LY k o L c e l := by
          exact Finset.sum_congr rfl fun a _ => Finset.sum_congr rfl fun b _ =>
            Finset.sum_comm
      _ = ∑ a : Fin (k + o), ∑ e : Fin n, ∑ b : Fin (k + o), ∑ c : Fin (k + o),
            LY k o L a e i * LY k o L b e j * LY k o L c e l := by
          exact Finset.sum_congr rfl fun a _ => Finset.sum_comm
      _ = ∑ e : Fin n, ∑ a : Fin (k + o), ∑ b : Fin (k + o), ∑ c : Fin (k + o),
            LY k o L a e i * LY k o L b e j * LY k o L c e l := Finset.sum_comm
      _ = ∑ e : Fin n, (∑ a : Fin (k + o), LY k o L a e i) *
            (∑ b : Fin (k + o), LY k o L b e j) *
            (∑ c : Fin (k + o), LY k o L c e l) :=
          Finset.sum_congr rfl fun e _ => (expand e).symm
  simp only [← Finset.sum_div]
  rw [hfact]
  have hone : ∀ e : Fin n, (∑ a : Fin (k + o), LY k o L a e i) *
      (∑ b : Fin (k + o), LY k o L b e j) *
      (∑ c : Fin (k + o), LY k o L c e l) = 1 := by
    intro e
    rw [sum_LY k o hL e i, sum_LY k o hL e j, sum_LY k o hL e l]
    norm_num
  rw [Finset.sum_congr rfl fun e _ => hone e]
  simp
  rw [div_self]
  exact_mod_cast hn.ne'

/-- C2: for every valid `n × m` label matrix `L` with `n > 0`, every entry of
`_get_overlaps_tensor(L)` lies in `[0, 1]`, and for each fixed source triple
`(i, j, l)` the sum over all value triples `(a, b, c)` equals `1`. -/
theorem overlaps_tensor_is_distribution (k o : ℕ) {n m : ℕ} (hn : 0 < n)
    {L : Fin n → Fin m → ℤ} (hL : ValidL k o L) :
    (∀ i j l : Fin m, ∀ a b c : Fin (k + o),
      0 ≤ overlaps k o L i j l a b c ∧ overlaps k o L i j l a b c ≤ 1) ∧
    (∀ i j l : Fin m, (∑ a : Fin (k + o), ∑ b : Fin (k + o),
      ∑ c : Fin (k + o), overlaps k o L i j l a b c) = 1) := by
  refine ⟨fun i j l a b c => ⟨overlaps_nonneg k o L i j l a b c,
    overlaps_le_one k o hn L i j l a b c⟩, fun i j l => overlaps_sum_one k o hn hL i j l⟩

/-- Witness for C2: a concrete valid `1 × 1` label matrix with `k = 2`,
abstains on (`o = 1`), whose overlaps tensor satisfies the property. -/
theorem overlaps_tensor_is_distribution_witness :
    (∀ i j l : Fin 1, ∀ a b c : Fin (2 + 1),
      0 ≤ overlaps 2 1 (fun (_ : Fin 1) (_ : Fin 1) => (0 : ℤ)) i j l a b c ∧
      overlaps 2 1 (fun (_ : Fin 1) (_ : Fin 1) => (0 : ℤ)) i j l a b c ≤ 1) ∧
    (∀ i j l : Fin 1, (∑ a : Fin (2 + 1), ∑ b : Fin (2 + 1), ∑ c : Fin (2 + 1),
      overlaps 2 1 (fun (_ : Fin 1) (_ : Fin 1) => (0 : ℤ)) i j l a b c) = 1) :=
  overlaps_tensor_is_distribution 2 1 (by norm_num)
    (fun e i => by constructor <;> norm_num)

/-- The overlaps tensor applied to a triple of sources and a triple of values,
given as functions on `Fin 3`. -/
def overlapsT (k o : ℕ) {n m : ℕ} (L : Fin n → Fin m → ℤ)
    (s : Fin 3 → Fin m) (v : Fin 3 → Fin (k + o)) : ℚ :=
  overlaps k o L (s 0) (s 1) (s 2) (v 0) (v 1) (v 2)

lemma overlapsT_eq_prod (k o : ℕ) {n m : ℕ} (L : Fin n → Fin m → ℤ)
    (s : Fin 3 → Fin m) (v : Fin 3 → Fin (k + o)) :
    overlapsT k o L s v = (∑ e : Fin n, ∏ t : Fin 3, LY k o L (v t) e (s t)) / n := by
  unfold overlapsT overlaps
  congr 1
  apply Finset.sum_congr rfl
  intro e _
  rw [Fin.prod_univ_three]

/-- C6: the overlaps tensor is invariant under any joint permutation `σ` of
its three (source, value) axis-pairs. -/
theorem overlaps_tensor_symmetric (k o : ℕ) {n m : ℕ} (L : Fin n → Fin m → ℤ)
    (σ : Equiv.Perm (Fin 3)) (s : Fin 3 → Fin m) (v : Fin 3 → Fin (k + o)) :
    overlapsT k o L (s ∘ σ) (v ∘ σ) = overlapsT k o L s v := by
  rw [overlapsT_eq_prod, overlapsT_eq_prod]
  congr 1
  apply Finset.sum_congr rfl
  intro e _
  exact Equiv.prod_comp σ (fun t => LY k o L (v t) e (s t))

/-! ## 4.2 Validity mask builder (`get_mask`) -/

/-- A six-index byte tensor, curried. -/
def MaskT (m klf : ℕ) : Type :=
  Fin m → Fin m → Fin m → Fin klf → Fin klf → Fin klf → ℕ

/-- The update `mask[i, j, k, :, :, :] = 0`: zero out one source-index slice. -/
def setSliceZero {m klf : ℕ} (M : MaskT m klf) (t : Fin m × Fin m × Fin m) :
    MaskT m klf :=
  fun i j l a b c => if (i, j, l) = t then 0 else M i j l a b c

/-- One iteration of the `for i, j, k in product(range(m), repeat=3)` loop:
zero the slice when `len(set((i, j, k))) < 3`. -/
def maskStep {m klf : ℕ} (M : MaskT m klf) (t : Fin m × Fin m × Fin m) :
    MaskT m klf :=
  if t.1 = t.2.1 ∨ t.1 = t.2.2 ∨ t.2.1 = t.2.2 then setSliceZero M t else M

/-- The loop index set `itertools.product(range(m), repeat=3)` as a list of triples. -/
def tripleList (m : ℕ) : List (Fin m × Fin m × Fin m) :=
  (List.finRange m).flatMap fun i =>
    (List.finRange m).flatMap fun j =>
      (List.finRange m).map fun l => (i, j, l)

/-- Model of `get_mask`: start from `torch.ones(...)` and run the zeroing loop. -/
def get_mask (m klf : ℕ) : MaskT m klf :=
  (tripleList m).foldl maskStep (fun _ _ _ _ _ _ => 1)

/-- Final value of the zeroing loop at a point: `0` exactly when the point's
source triple occurs in the remaining iteration list and has a repeat. -/
lemma foldl_maskStep_apply {m klf : ℕ} (ts : List (Fin m × Fin m × Fin m))
    (M : MaskT m klf) (i j l : Fin m) (a b c : Fin klf) :
    (ts.foldl maskStep M) i j l a b c =
      if (i, j, l) ∈ ts ∧ ((i, j, l).1 = (i, j, l).2.1 ∨ (i, j, l).1 = (i, j, l).2.2 ∨
          (i, j, l).2.1 = (i, j, l).2.2) then 0
      else M i j l a b c := by
  induction ts generalizing M with
  | nil => simp
  | cons t ts ih =>
    rw [List.foldl_cons, ih]
    by_cases hmem : (i, j, l) ∈ ts ∧ ((i, j, l).1 = (i, j, l).2.1 ∨
        (i, j, l).1 = (i, j, l).2.2 ∨ (i, j, l).2.1 = (i, j, l).2.2)
    · rw [if_pos hmem, if_pos ⟨List.mem_cons_of_mem t hmem.1, hmem.2⟩]
    · rw [if_neg hmem]
      by_cases hbadcur : (i, j, l) = t ∧ ((i, j, l).1 = (i, j, l).2.1 ∨
          (i, j, l).1 = (i, j, l).2.2 ∨ (i, j, l).2.1 = (i, j, l).2.2)
      · rcases hbadcur with ⟨heq, hbad⟩
        subst heq
        rw [if_pos ⟨List.mem_cons_self _ _, hbad⟩]
        unfold maskStep
        rw [if_pos hbad]
        unfold setSliceZero
        rw [if_pos rfl]
      · have hcond : ¬((i, j, l) ∈ t :: ts ∧ ((i, j, l).1 = (i, j, l).2.1 ∨
            (i, j, l).1 = (i, j, l).2.2 ∨ (i, j, l).2.1 = (i, j, l).2.2)) := by
          rintro ⟨hm, hb⟩
          rcases List.mem_cons.mp hm with h | h
          · exact hbadcur ⟨h, hb⟩
          · exact hmem ⟨h, hb⟩
        rw [if_neg hcond]
        unfold maskStep
        by_cases ht : t.1 = t.2.1 ∨ t.1 = t.2.2 ∨ t.2.1 = t.2.2
        · rw [if_pos ht]
          unfold setSliceZero
          rw [if_neg]
          intro heq
          exact hbadcur ⟨heq, by rw [heq]; exact ht⟩
        · rw [if_neg ht]

lemma mem_tripleList {m : ℕ} (t : Fin m × Fin m × Fin m) : t ∈ tripleList m := by
  obtain ⟨i, j, l⟩ := t
  unfold tripleList
  simp [List.mem_flatMap]

/-- C7: `get_mask(m)` is `1` at `(i, j, l, a, b, c)` exactly when the three
source indices are pairwise distinct, and `0` otherwise; the value is uniform
across the three value axes. -/
theorem get_mask_spec (m klf : ℕ) (i j l : Fin m) (a b c : Fin klf) :
    get_mask m klf i j l a b c = if i ≠ j ∧ i ≠ l ∧ j ≠ l then 1 else 0 := by
  unfold get_mask
  rw [foldl_maskStep_apply]
  by_cases h : i ≠ j ∧ i ≠ l ∧ j ≠ l
  · rw [if_pos h, if_neg]
    rintro ⟨-, hbad⟩
    simp only at hbad
    tauto
  · rw [if_neg h, if_pos]
    refine ⟨mem_tripleList (i, j, l), ?_⟩
    simp only
    tauto

/-! ## 4.3 Factorization loss (`get_loss`) -/

/-- The index type of the six-dimensional tensors: three source axes followed
by three value axes. -/
def Idx6 (m klf : ℕ) : Type :=
  Fin m × Fin m × Fin m × Fin klf × Fin klf × Fin klf

instance (m klf : ℕ) : DecidableEq (Idx6 m klf) := by
  unfold Idx6; infer_instance

instance (m klf : ℕ) : Fintype (Idx6 m klf) := by
  unfold Idx6; infer_instance

/-- All `(i, j, l, a, b, c)` index tuples, in row-major order: the order in
which boolean mask indexing flattens a tensor. -/
def idxList (m klf : ℕ) : List (Idx6 m klf) :=
  (List.finRange m).flatMap fun i =>
    (List.finRange m).flatMap fun j =>
      (List.finRange m).flatMap fun l =>
        (List.finRange klf).flatMap fun a =>
          (List.finRange klf).flatMap fun b =>
            (List.finRange klf).map fun c => (i, j, l, a, b, c)

/-- The einsum `torch.einsum("aby,cdy,efy->acebdf", [Q, Q, Q])`: with output
axes `(a, c, e, b, d, f)`, the entry at `(i, j, l, a, b, c)` is
`∑ y, Q i a y * Q j b y * Q l c y`. -/
def reconstructed {m klf k : ℕ} (Q : Fin m → Fin klf → Fin k → ℚ)
    (i j l : Fin m) (a b c : Fin klf) : ℚ :=
  ∑ y : Fin k, Q i a y * Q j b y * Q l c y

/-- Model of `get_loss(O, Q, mask)`: flatten the difference tensor at the entries the
byte mask selects, then take the squared Frobenius norm
(`torch.norm(diffs) ** 2` = the sum of the squares of the selected entries). -/
def get_loss {m klf k : ℕ}
    (O : Fin m → Fin m → Fin m → Fin klf → Fin klf → Fin klf → ℚ)
    (Q : Fin m → Fin klf → Fin k → ℚ) (mask : MaskT m klf) : ℚ :=
  (((idxList m klf).filter fun t => mask t.1 t.2.1 t.2.2.1 t.2.2.2.1 t.2.2.2.2.1
      t.2.2.2.2.2 != 0).map fun t =>
    (O t.1 t.2.1 t.2.2.1 t.2.2.2.1 t.2.2.2.2.1 t.2.2.2.2.2 -
      reconstructed Q t.1 t.2.1 t.2.2.1 t.2.2.2.1 t.2.2.2.2.1 t.2.2.2.2.2) ^ 2).sum

/-- Filtering then mapping sums the same as mapping with a guard. -/
lemma sum_map_filter {α : Type} (p : α → Bool) (f : α → ℚ) (l : List α) :
    ((l.filter p).map f).sum = (l.map fun a => if p a then f a else 0).sum := by
  induction l with
  | nil => simp
  | cons x xs ih =>
    by_cases hx : p x
    · rw [List.filter_cons_of_pos hx, List.map_cons, List.sum_cons,
        List.map_cons, List.sum_cons, if_pos hx, ih]
    · rw [List.filter_cons_of_neg hx, List.map_cons, List.sum_cons,
        if_neg hx, ih, zero_add]

/-- Summing a map over a `flatMap` sums the inner sums. -/
lemma sum_map_flatMap {α β : Type} (g : β → ℚ) (f : α → List β) (l : List α) :
    ((l.flatMap f).map g).sum = (l.map fun a => ((f a).map g).sum).sum := by
  induction l with
  | nil => simp
  | cons x xs ih =>
    rw [List.flatMap_cons, List.map_append, List.sum_append, ih,
      List.map_cons, List.sum_cons]

/-- Summing a function over all six-tuples equals the iterated sum. -/
lemma sum_idxList {m klf : ℕ} (g : Idx6 m klf → ℚ) :
    ((idxList m klf).map g).sum =
      ∑ i : Fin m, ∑ j : Fin m, ∑ l : Fin m, ∑ a : Fin klf, ∑ b : Fin klf,
        ∑ c : Fin klf, g (i, j, l, a, b, c) := by
  unfold idxList
  simp only [sum_map_flatMap, List.map_map, ← Fin.sum_univ_def]
  rfl

/-- C3: `get_loss(O, Q, mask)` is the sum, over exactly the entries selected
by the mask, of the squared residual between `O` and the rank-`k` symmetric
reconstruction `∑ y, Q i a y * Q j b y * Q l c y`. -/
theorem get_loss_is_masked_squared_residual {m klf k : ℕ}
    (O : Fin m → Fin m → Fin m → Fin klf → Fin klf → Fin klf → ℚ)
    (Q : Fin m → Fin klf → Fin k → ℚ) (mask : MaskT m klf) :
    get_loss O Q mask =
      ∑ i : Fin m, ∑ j : Fin m, ∑ l : Fin m, ∑ a : Fin klf, ∑ b : Fin klf,
        ∑ c : Fin klf,
          if mask i j l a b c ≠ 0 then
            (O i j l a b c - ∑ y : Fin k, Q i a y * Q j b y * Q l c y) ^ 2
          else 0 := by
  unfold get_loss
  rw [sum_map_filter]
  rw [sum_idxList (fun t => if (mask t.1 t.2.1 t.2.2.1 t.2.2.2.1 t.2.2.2.2.1
    t.2.2.2.2.2 != 0) = true then
      (O t.1 t.2.1 t.2.2.1 t.2.2.2.1 t.2.2.2.2.1 t.2.2.2.2.2 -
        reconstructed Q t.1 t.2.1 t.2.2.1 t.2.2.2.1 t.2.2.2.2.1 t.2.2.2.2.2) ^ 2
    else 0)]
  refine Finset.sum_congr rfl fun i _ => Finset.sum_congr rfl fun j _ =>
    Finset.sum_congr rfl fun l _ => Finset.sum_congr rfl fun a _ =>
    Finset.sum_congr rfl fun b _ => Finset.sum_congr rfl fun c _ => ?_
  simp only [bne_iff_ne, ne_eq, decide_not]
  unfold reconstructed
  split <;> rfl

/-! ## 4.4 Decoder & symmetry resolver (tail of `train_model`) -/

/-- Per-source column mass `q.sum(axis=1)`: the sum of `q` over the value
axis, for source `i` and latent column `y`. -/
def colsum (k o m : ℕ) (q : Fin m → Fin (k + o) → Fin k → ℚ)
    (i : Fin m) (y : Fin k) : ℚ :=
  ∑ v : Fin (k + o), q i v y

/-- The line `p_y = np.mean(q.sum(axis=1) ** 3, axis=0)`: cube the per-source column
masses and average over sources. -/
def p_y (k o m : ℕ) (q : Fin m → Fin (k + o) → Fin k → ℚ) (y : Fin k) : ℚ :=
  (∑ i : Fin m, (colsum k o m q i y) ^ 3) / m

/-- The diagonal matrix `np.diag(1 / p_y ** (1/3))`, with the cube roots of
`p_y` supplied as `r`. -/
def diagInv (k : ℕ) (r : Fin k → ℚ) (z y : Fin k) : ℚ :=
  if z = y then 1 / r z else 0

/-- The line `cps = q @ np.diag(1 / p_y ** (1/3))`: a batched matrix product over the
latent-column axis. -/
def cps (k o m : ℕ) (q : Fin m → Fin (k + o) → Fin k → ℚ) (r : Fin k → ℚ)
    (i : Fin m) (v : Fin (k + o)) (y : Fin k) : ℚ :=
  ∑ z : Fin k, q i v z * diagInv k r z y

/-- The non-abstain slice `cps_na`: when `k_lf > k` (abstains, `o = 1`) the
value axis is sliced as `cps[:, 1:, :]`, so non-abstain value `v` maps to raw
value index `v + 1`; without abstains (`o = 0`) it is the identity. -/
def vmap (k o : ℕ) (v : Fin k) : Fin (k + o) :=
  ⟨v + o, by omega⟩

/-- Model of `np.argmax` over a list: the index of the first occurrence of the maximum
(`0` on an empty list). -/
def firstMaxIdx {α : Type} [LinearOrder α] : List α → ℕ
  | [] => 0
  | x :: xs => if ∀ y ∈ xs, y ≤ x then 0 else firstMaxIdx xs + 1

/-- One row of `cps_na.argmax(axis=2)`: for source `i`, the argmax latent
column of `cps_na[i, v, :]` for each non-abstain value `v`. -/
def argmaxRow (k o m : ℕ) (q : Fin m → Fin (k + o) → Fin k → ℚ)
    (r : Fin k → ℚ) (i : Fin m) : List ℕ :=
  (List.finRange k).map fun v =>
    firstMaxIdx ((List.finRange k).map fun y => cps k o m q r i (vmap k o v) y)

/-- All rows of `cps_na.argmax(axis=2)`, one per source. -/
def rowsList (k o m : ℕ) (q : Fin m → Fin (k + o) → Fin k → ℚ)
    (r : Fin k → ℚ) : List (List ℕ) :=
  (List.finRange m).map (argmaxRow k o m q r)

/-- Lexicographic comparison of equal-length integer rows, as used by
`np.unique(..., axis=0)` to sort rows. -/
def lexLe : List ℕ → List ℕ → Bool
  | [], _ => true
  | _ :: _, [] => false
  | x :: xs, y :: ys => if x < y then true else if y < x then false else lexLe xs ys

/-- The comparison `lexLe` as a relation. -/
def lexR (a b : List ℕ) : Prop := lexLe a b = true

instance : DecidableRel lexR := fun a b => by unfold lexR; infer_instance

/-- The `vals` output of `np.unique(rows, axis=0, return_counts=True)`: the distinct
rows, sorted lexicographically. -/
def uniqueRows (k o m : ℕ) (q : Fin m → Fin (k + o) → Fin k → ℚ)
    (r : Fin k → ℚ) : List (List ℕ) :=
  (rowsList k o m q r).dedup.insertionSort lexR

/-- The `counts` output of `np.unique(..., return_counts=True)`: the multiplicity of
each distinct row among the per-source rows, aligned with `uniqueRows`. -/
def countsList (k o m : ℕ) (q : Fin m → Fin (k + o) → Fin k → ℚ)
    (r : Fin k → ℚ) : List ℕ :=
  (uniqueRows k o m q r).map fun row => (rowsList k o m q r).count row

/-- The line `col_order = vals[counts.argmax()]`. -/
def colOrder (k o m : ℕ) (q : Fin m → Fin (k + o) → Fin k → ℚ)
    (r : Fin k → ℚ) : List ℕ :=
  (uniqueRows k o m q r).getD (firstMaxIdx (countsList k o m q r)) []

/-- Value of `p_y` read at a raw integer index (advanced indexing `p_y[col_order]`
reads entries of `p_y`; indices out of range do not occur for `p_y` since
argmax indices are `< k`). -/
def p_yNat (k o m : ℕ) (q : Fin m → Fin (k + o) → Fin k → ℚ) (y : ℕ) : ℚ :=
  if h : y < k then p_y k o m q ⟨y, h⟩ else 0

/-- The assignment `self.class_balance = p_y[col_order]`. -/
def class_balance (k o m : ℕ) (q : Fin m → Fin (k + o) → Fin k → ℚ)
    (r : Fin k → ℚ) : List ℚ :=
  (colOrder k o m q r).map (p_yNat k o m q)

/-- Value of `cps` read at a raw integer index along its *first* (source) axis, as the
advanced indexing `cps[col_order]` does; out-of-range reads (which raise
`IndexError` in numpy) are given a junk value here and are flagged in the
`trainModel` model below. -/
def cpsNat (k o m : ℕ) (q : Fin m → Fin (k + o) → Fin k → ℚ) (r : Fin k → ℚ)
    (i : ℕ) : Fin (k + o) → Fin k → ℚ :=
  if h : i < m then cps k o m q r ⟨i, h⟩ else fun _ _ => 0

/-- The assignment `self.cond_probs = cps[col_order]`: advanced indexing on the source axis
(not the latent-column axis), exactly as the source line does. -/
def cond_probs (k o m : ℕ) (q : Fin m → Fin (k + o) → Fin k → ℚ)
    (r : Fin k → ℚ) : List (Fin (k + o) → Fin k → ℚ) :=
  (colOrder k o m q r).map (cpsNat k o m q r)

/-- The diagonal matrix product collapses: `cps i v y = q i v y / r y`. -/
lemma cps_eq_div (k o m : ℕ) (q : Fin m → Fin (k + o) → Fin k → ℚ)
    (r : Fin k → ℚ) (i : Fin m) (v : Fin (k + o)) (y : Fin k) :
    cps k o m q r i v y = q i v y / r y := by
  unfold cps diagInv
  have : (∑ z : Fin k, q i v z * if z = y then 1 / r z else 0)
      = ∑ z : Fin k, if z = y then q i v z * (1 / r z) else 0 := by
    refine Finset.sum_congr rfl fun z _ => ?_
    split <;> simp
  rw [this, Finset.sum_ite_eq' Finset.univ y (fun z => q i v z * (1 / r z))]
  simp [mul_one_div, div_eq_mul_inv]

/-- C4: in the decode step, `p_y y` is the mean over sources of the cubed
column masses, and `cps i v y = q i v y / r y` where `r` is the cube root of
`p_y` (`np.diag(1 / p_y ** (1/3))` inverted pointwise). -/
theorem decode_formulas (k o m : ℕ) (q : Fin m → Fin (k + o) → Fin k → ℚ)
    (r : Fin k → ℚ) (hr : ∀ y, 0 < r y ∧ r y ^ 3 = p_y k o m q y) :
    (∀ y, p_y k o m q y =
      (∑ i : Fin m, (∑ v : Fin (k + o), q i v y) ^ 3) / m) ∧
    (∀ i v y, cps k o m q r i v y = q i v y / r y) := by
  constructor
  · intro y
    unfold p_y colsum
    rfl
  · intro i v y
    exact cps_eq_div k o m q r i v y

/-- Witness for C4 at `k = 1`, `o = 0`, `m = 1`, `q ≡ 2`, `r ≡ 2`
(`p_y = 2³ = 8`, the cube root is `2`). -/
theorem decode_formulas_witness :
    (∀ y, p_y 1 0 1 (fun _ _ _ => (2 : ℚ)) y =
      (∑ i : Fin 1, (∑ v : Fin (1 + 0), (fun (_ : Fin 1) (_ : Fin (1 + 0))
        (_ : Fin 1) => (2 : ℚ)) i v y) ^ 3) / 1) ∧
    (∀ i v y, cps 1 0 1 (fun _ _ _ => (2 : ℚ)) (fun _ => 2) i v y =
      (fun (_ : Fin 1) (_ : Fin (1 + 0)) (_ : Fin 1) => (2 : ℚ)) i v y /
        (fun (_ : Fin 1) => (2 : ℚ)) y) :=
  decode_formulas 1 0 1 (fun _ _ _ => 2) (fun _ => 2)
    (fun y => ⟨by norm_num, by simp [p_y, colsum]⟩)

/-! ## `train_model` control flow (input selection, errors, state mutation) -/

/-- The externally visible instance state of a `ClassBalanceModel`: the
estimated quantities plus the attributes `train_model` assigns along the way
(`self.m`, `self.mask`, `self.Q`).  `none` models a Python attribute that is
unset / `None`. -/
structure CBState (k o : ℕ) where
  class_balance : Option (List ℚ)
  cond_probs : Option (List (Fin (k + o) → Fin k → ℚ))
  m_attr : Option ℕ
  mask_attr : Option ((m : ℕ) × MaskT m (k + o))
  Q_attr : Option ((m : ℕ) × (Fin m → Fin (k + o) → Fin k → ℚ))

/-- The body of `train_model` once an overlaps tensor is in hand: assign
`self.m`, `self.mask`, `self.Q` (whose post-optimization value is supplied by
the oracle `fit`, abstracting random initialization plus L-BFGS), then decode.
The second component is `some msg` when the call raises, in which case the
first component is the instance state at the moment of the raise
(`np.argmax` raises on an empty sequence when `m = 0`; `cps[col_order]`
raises `IndexError` when a column index is out of range for the source
axis — note `self.class_balance` has already been assigned at that point). -/
def trainBody (k o m : ℕ)
    (O : Fin m → Fin m → Fin m → Fin (k + o) → Fin (k + o) → Fin (k + o) → ℚ)
    (st : CBState k o)
    (fit : (m' : ℕ) →
      (Fin m' → Fin m' → Fin m' → Fin (k + o) → Fin (k + o) → Fin (k + o) → ℚ) →
      MaskT m' (k + o) → (Fin m' → Fin (k + o) → Fin k → ℚ))
    (cbrt : (m' : ℕ) → (Fin m' → Fin (k + o) → Fin k → ℚ) → Fin k → ℚ) :
    CBState k o × Option String :=
  let mask := get_mask m (k + o)
  let q := fit m O mask
  let st3 : CBState k o :=
    { st with m_attr := some m, mask_attr := some ⟨m, mask⟩, Q_attr := some ⟨m, q⟩ }
  let r := cbrt m q
  if m = 0 then (st3, some "attempt to get argmax of an empty sequence")
  else
    let st4 : CBState k o :=
      { st3 with class_balance := some (class_balance k o m q r) }
    if ∀ x ∈ colOrder k o m q r, x < m then
      ({ st4 with cond_probs := some (cond_probs k o m q r) }, none)
    else (st4, some "index out of bounds")

/-- Model of `train_model(L, O, ...)`: use `O` if supplied, else build it from `L`,
else raise `ValueError` before touching any instance state. -/
def trainModel (k o : ℕ) (st : CBState k o)
    (fit : (m' : ℕ) →
      (Fin m' → Fin m' → Fin m' → Fin (k + o) → Fin (k + o) → Fin (k + o) → ℚ) →
      MaskT m' (k + o) → (Fin m' → Fin (k + o) → Fin k → ℚ))
    (cbrt : (m' : ℕ) → (Fin m' → Fin (k + o) → Fin k → ℚ) → Fin k → ℚ)
    (Lopt : Option ((n : ℕ) × (m : ℕ) × (Fin n → Fin m → ℤ)))
    (Oopt : Option ((m : ℕ) ×
      (Fin m → Fin m → Fin m → Fin (k + o) → Fin (k + o) → Fin (k + o) → ℚ))) :
    CBState k o × Option String :=
  match Oopt, Lopt with
  | some ⟨m, O⟩, _ => trainBody k o m O st fit cbrt
  | none, some ⟨_, m, L⟩ => trainBody k o m (overlaps k o L) st fit cbrt
  | none, none => (st, some "L or O required as input.")

/-- C8: calling `train_model` with neither `L` nor `O` raises the
invalid-input `ValueError` synchronously and leaves every instance attribute
exactly as it was (the returned state is the input state `st`, for every
`st`). -/
theorem train_model_no_input_error (k o : ℕ) (st : CBState k o) (fit) (cbrt) :
    trainModel k o st fit cbrt none none = (st, some "L or O required as input.") :=
  rfl

/-- C9: when both `L` and `O` are supplied, the call proceeds using `O`: the
result is identical to the call with only `O` (for every `L`, so `L` is
ignored and the overlaps builder is never applied to it), and the
invalid-input error is not raised. -/
theorem train_model_prefers_O (k o : ℕ) (st : CBState k o) (fit) (cbrt)
    (L : (n : ℕ) × (m : ℕ) × (Fin n → Fin m → ℤ))
    (O : (m : ℕ) ×
      (Fin m → Fin m → Fin m → Fin (k + o) → Fin (k + o) → Fin (k + o) → ℚ)) :
    trainModel k o st fit cbrt (some L) (some O) =
      trainModel k o st fit cbrt none (some O) ∧
    (trainModel k o st fit cbrt (some L) (some O)).2 ≠
      some "L or O required as input." := by
  obtain ⟨m, OT⟩ := O
  constructor
  · rfl
  · show (trainBody k o m OT st fit cbrt).2 ≠ some "L or O required as input."
    unfold trainBody
    dsimp only
    split
    · simp
    · split <;> simp

/-! ## Properties of the row ordering and of `np.argmax` -/

lemma lexLe_refl (l : List ℕ) : lexLe l l = true := by
  induction l with
  | nil => rfl
  | cons x xs ih => simp [lexLe, ih]

lemma lexLe_total (a b : List ℕ) : lexLe a b = true ∨ lexLe b a = true := by
  induction a generalizing b with
  | nil => left; rfl
  | cons x xs ih =>
    cases b with
    | nil => right; rfl
    | cons y ys =>
      rcases lt_trichotomy x y with h | h | h
      · left; simp [lexLe, h]
      · subst h
        rcases ih ys with h' | h'
        · left; simp [lexLe, h']
        · right; simp [lexLe, h']
      · right; simp [lexLe, h, lt_asymm h]

lemma lexLe_trans {a b c : List ℕ} (hab : lexLe a b = true)
    (hbc : lexLe b c = true) : lexLe a c = true := by
  induction a generalizing b c with
  | nil => rfl
  | cons x xs ih =>
    cases b with
    | nil => simp [lexLe] at hab
    | cons y ys =>
      cases c with
      | nil => simp [lexLe] at hbc
      | cons z zs =>
        simp only [lexLe] at hab hbc ⊢
        rcases lt_trichotomy x y with hxy | hxy | hxy
        · rcases lt_trichotomy y z with hyz | hyz | hyz
          · simp [lt_trans hxy hyz]
          · subst hyz; simp [hxy]
          · rw [if_neg (by omega), if_pos hyz] at hbc; exact absurd hbc (by simp)
        · subst hxy
          rw [if_neg (lt_irrefl x), if_neg (lt_irrefl x)] at hab
          rcases lt_trichotomy x z with hyz | hyz | hyz
          · simp [hyz]
          · subst hyz
            rw [if_neg (lt_irrefl x), if_neg (lt_irrefl x)] at hbc ⊢
            exact ih hab hbc
          · rw [if_neg (by omega), if_pos hyz] at hbc; exact absurd hbc (by simp)
        · rw [if_neg (by omega), if_pos hxy] at hab; exact absurd hab (by simp)

instance : IsTotal (List ℕ) lexR := ⟨fun a b => lexLe_total a b⟩

instance : IsTrans (List ℕ) lexR := ⟨fun _ _ _ => lexLe_trans⟩

/-- The `np.argmax` semantics of `firstMaxIdx`: on a nonempty list, the entry at
the returned index is a maximum, and every earlier entry is strictly below
it. -/
lemma firstMaxIdx_spec {α : Type} [LinearOrder α] (d : α) :
    ∀ l : List α, l ≠ [] →
      firstMaxIdx l < l.length ∧
      (∀ y ∈ l, y ≤ l.getD (firstMaxIdx l) d) ∧
      (∀ j < firstMaxIdx l, l.getD j d < l.getD (firstMaxIdx l) d) := by
  intro l
  induction l with
  | nil => intro h; exact absurd rfl h
  | cons x xs ih =>
    intro _
    by_cases hx : ∀ y ∈ xs, y ≤ x
    · rw [show firstMaxIdx (x :: xs) = 0 from by rw [firstMaxIdx, if_pos hx]]
      refine ⟨by simp, ?_, by omega⟩
      intro y hy
      rw [List.getD_cons_zero]
      rcases List.mem_cons.mp hy with h | h
      · exact le_of_eq h
      · exact hx y h
    · have hxs : xs ≠ [] := by
        rintro rfl
        exact hx (by simp)
      obtain ⟨hlt, hmax, hstrict⟩ := ih hxs
      rw [show firstMaxIdx (x :: xs) = firstMaxIdx xs + 1 from by
        rw [firstMaxIdx, if_neg hx]]
      obtain ⟨y₀, hy₀, hy₀x⟩ : ∃ y ∈ xs, ¬y ≤ x := by
        push_neg at hx
        obtain ⟨y₀, h₁, h₂⟩ := hx
        exact ⟨y₀, h₁, not_le_of_lt h₂⟩
      have hxlt : x < xs.getD (firstMaxIdx xs) d :=
        lt_of_lt_of_le (lt_of_not_le hy₀x) (hmax y₀ hy₀)
      refine ⟨by simpa using hlt, ?_, ?_⟩
      · intro y hy
        rw [List.getD_cons_succ]
        rcases List.mem_cons.mp hy with h | h
        · exact h ▸ le_of_lt hxlt
        · exact hmax y h
      · intro j hj
        rw [List.getD_cons_succ]
        cases j with
        | zero => rw [List.getD_cons_zero]; exact hxlt
        | succ j' =>
          rw [List.getD_cons_succ]
          exact hstrict j' (by omega)

lemma rowsList_length (k o m : ℕ) (q : Fin m → Fin (k + o) → Fin k → ℚ)
    (r : Fin k → ℚ) : (rowsList k o m q r).length = m := by
  unfold rowsList
  rw [List.length_map, List.length_finRange]

lemma uniqueRows_sorted (k o m : ℕ) (q : Fin m → Fin (k + o) → Fin k → ℚ)
    (r : Fin k → ℚ) : List.Sorted lexR (uniqueRows k o m q r) :=
  List.sorted_insertionSort lexR _

lemma uniqueRows_perm (k o m : ℕ) (q : Fin m → Fin (k + o) → Fin k → ℚ)
    (r : Fin k → ℚ) :
    (uniqueRows k o m q r).Perm (rowsList k o m q r).dedup :=
  List.perm_insertionSort lexR _

lemma mem_uniqueRows (k o m : ℕ) (q : Fin m → Fin (k + o) → Fin k → ℚ)
    (r : Fin k → ℚ) (row : List ℕ) :
    row ∈ uniqueRows k o m q r ↔ row ∈ rowsList k o m q r := by
  rw [(uniqueRows_perm k o m q r).mem_iff, List.mem_dedup]

lemma uniqueRows_ne_nil (k o m : ℕ) (q : Fin m → Fin (k + o) → Fin k → ℚ)
    (r : Fin k → ℚ) (hm : 0 < m) : uniqueRows k o m q r ≠ [] := by
  intro h
  have h0 : argmaxRow k o m q r ⟨0, hm⟩ ∈ rowsList k o m q r := by
    unfold rowsList
    exact List.mem_map.mpr ⟨⟨0, hm⟩, List.mem_finRange _, rfl⟩
  have : argmaxRow k o m q r ⟨0, hm⟩ ∈ uniqueRows k o m q r :=
    (mem_uniqueRows k o m q r _).mpr h0
  rw [h] at this
  exact absurd this (List.not_mem_nil _)

/-- C10: `col_order` is a per-source argmax row attaining the maximal count,
and among all rows tied for the maximal count it is the lexicographically
smallest (because `np.unique` sorts the candidate rows and `argmax` over the
counts returns the first maximum). -/
theorem colOrder_plurality_lexmin (k o m : ℕ)
    (q : Fin m → Fin (k + o) → Fin k → ℚ) (r : Fin k → ℚ) (hm : 0 < m) :
    colOrder k o m q r ∈ rowsList k o m q r ∧
    (∀ row ∈ rowsList k o m q r,
      (rowsList k o m q r).count row ≤
        (rowsList k o m q r).count (colOrder k o m q r)) ∧
    (∀ row ∈ rowsList k o m q r,
      (rowsList k o m q r).count row =
        (rowsList k o m q r).count (colOrder k o m q r) →
      lexLe (colOrder k o m q r) row = true) := by
  have hune := uniqueRows_ne_nil k o m q r hm
  have hcntlen : (countsList k o m q r).length = (uniqueRows k o m q r).length := by
    unfold countsList
    rw [List.length_map]
  have hcne : countsList k o m q r ≠ [] := by
    intro h
    apply hune
    have := hcntlen
    rw [h] at this
    exact List.length_eq_zero.mp this.symm
  obtain ⟨hi0lt, hmax, hstrict⟩ := firstMaxIdx_spec 0 (countsList k o m q r) hcne
  set i0 := firstMaxIdx (countsList k o m q r) with hi0
  have hi0u : i0 < (uniqueRows k o m q r).length := by rw [← hcntlen]; exact hi0lt
  have hco : colOrder k o m q r = (uniqueRows k o m q r).get ⟨i0, hi0u⟩ := by
    unfold colOrder
    rw [← hi0, List.getD_eq_getElem _ _ hi0u]
    simp
  -- the count aligned with index `j` of `uniqueRows` is the count of that row
  have hcnt_get : ∀ (j : ℕ) (hj : j < (uniqueRows k o m q r).length),
      (countsList k o m q r).getD j 0 =
        (rowsList k o m q r).count ((uniqueRows k o m q r).get ⟨j, hj⟩) := by
    intro j hj
    have hj' : j < (countsList k o m q r).length := by rw [hcntlen]; exact hj
    rw [List.getD_eq_getElem _ _ hj']
    unfold countsList
    simp
  have hcomem : colOrder k o m q r ∈ rowsList k o m q r := by
    rw [hco, ← mem_uniqueRows k o m q r]
    exact List.get_mem _ _ _
  refine ⟨hcomem, ?_, ?_⟩
  · intro row hrow
    obtain ⟨⟨j, hj⟩, hget⟩ := List.mem_iff_get.mp
      ((mem_uniqueRows k o m q r row).mpr hrow)
    have hjcnt : (rowsList k o m q r).count row ∈ countsList k o m q r := by
      unfold countsList
      rw [List.mem_map]
      exact ⟨row, (mem_uniqueRows k o m q r row).mpr hrow, rfl⟩
    have := hmax _ hjcnt
    rw [hcnt_get i0 hi0u] at this
    rw [hco]
    exact this
  · intro row hrow htie
    obtain ⟨⟨j, hj⟩, hget⟩ := List.mem_iff_get.mp
      ((mem_uniqueRows k o m q r row).mpr hrow)
    by_cases hji : j < i0
    · exfalso
      have hstr := hstrict j hji
      rw [hcnt_get j hj, hcnt_get i0 hi0u, hget, ← hco] at hstr
      rw [htie] at hstr
      exact lt_irrefl _ hstr
    · rcases Nat.lt_or_ge i0 j with hij | hij
      · have hsorted := uniqueRows_sorted k o m q r
        have := List.pairwise_iff_get.mp hsorted ⟨i0, hi0u⟩ ⟨j, hj⟩ hij
        rw [hget] at this
        rw [hco]
        exact this
      · have : i0 = j := by omega
        subst this
        rw [hco, hget]
        exact lexLe_refl row

lemma colOrder_mem_rowsList (k o m : ℕ) (q : Fin m → Fin (k + o) → Fin k → ℚ)
    (r : Fin k → ℚ) (hm : 0 < m) :
    colOrder k o m q r ∈ rowsList k o m q r := by
  have hune := uniqueRows_ne_nil k o m q r hm
  have hcntlen : (countsList k o m q r).length = (uniqueRows k o m q r).length := by
    unfold countsList
    rw [List.length_map]
  have hcne : countsList k o m q r ≠ [] := by
    intro h
    apply hune
    have := hcntlen
    rw [h] at this
    exact List.length_eq_zero.mp this.symm
  obtain ⟨hi0lt, -, -⟩ := firstMaxIdx_spec 0 (countsList k o m q r) hcne
  have hi0u : firstMaxIdx (countsList k o m q r) < (uniqueRows k o m q r).length := by
    rw [← hcntlen]; exact hi0lt
  rw [← mem_uniqueRows k o m q r]
  unfold colOrder
  rw [List.getD_eq_getElem _ _ hi0u]
  exact List.getElem_mem hi0u

lemma argmaxRow_length (k o m : ℕ) (q : Fin m → Fin (k + o) → Fin k → ℚ)
    (r : Fin k → ℚ) (i : Fin m) : (argmaxRow k o m q r i).length = k := by
  unfold argmaxRow
  rw [List.length_map, List.length_finRange]

lemma argmaxRow_entries_lt (k o m : ℕ) (q : Fin m → Fin (k + o) → Fin k → ℚ)
    (r : Fin k → ℚ) (i : Fin m) (hk : 0 < k) :
    ∀ x ∈ argmaxRow k o m q r i, x < k := by
  intro x hx
  unfold argmaxRow at hx
  obtain ⟨v, -, hv⟩ := List.mem_map.mp hx
  have hne : ((List.finRange k).map fun y => cps k o m q r i (vmap k o v) y) ≠ [] := by
    intro h
    have := congrArg List.length h
    rw [List.length_map, List.length_finRange, List.length_nil] at this
    omega
  obtain ⟨hlt, -, -⟩ := firstMaxIdx_spec 0 _ hne
  rw [List.length_map, List.length_finRange] at hlt
  omega

/-- Counterexample to C5: with `k = 2`, no abstains, `m = 2` sources and the
fitted value `q ≡ 1` (cube roots `r ≡ 2` of `p_y ≡ 8`), every per-source
argmax row is `[0, 0]`, so `col_order = [0, 0]`: it has a repeated entry and
is *not* a permutation of the `k = 2` latent columns. -/
theorem colOrder_not_permutation_cex :
    (∀ y, 0 < (fun _ : Fin 2 => (2 : ℚ)) y ∧
      (fun _ : Fin 2 => (2 : ℚ)) y ^ 3 =
        p_y 2 0 2 (fun _ _ _ => (1 : ℚ)) y) ∧
    colOrder 2 0 2 (fun _ _ _ => (1 : ℚ)) (fun _ => 2) = [0, 0] ∧
    ¬ (colOrder 2 0 2 (fun _ _ _ => (1 : ℚ)) (fun _ => 2)).Nodup := by
  have hrows : rowsList 2 0 2 (fun _ _ _ => (1 : ℚ)) (fun _ => 2)
      = [[0, 0], [0, 0]] := by
    have hcps : ∀ i v y, cps 2 0 2 (fun _ _ _ => (1 : ℚ)) (fun _ => 2) i v y
        = 1 / 2 := by
      intro i v y
      fin_cases y <;> simp [cps, diagInv, Fin.sum_univ_two, Fin.ext_iff]
    have hfr2 : List.finRange 2 = [0, 1] := rfl
    simp [rowsList, argmaxRow, hcps, hfr2, firstMaxIdx]
  have hco : colOrder 2 0 2 (fun _ _ _ => (1 : ℚ)) (fun _ => 2) = [0, 0] := by
    simp only [colOrder, countsList, uniqueRows, hrows]
    decide
  refine ⟨?_, hco, ?_⟩
  · intro y
    refine ⟨by norm_num, ?_⟩
    have : p_y 2 0 2 (fun _ _ _ => (1 : ℚ)) y = 8 := by
      simp [p_y, colsum, Fin.sum_univ_two]
      norm_num
    rw [this]
    norm_num
  · rw [hco]
    decide

/-- C5 (amended): the canonical column order is the per-source argmax row of
some source (so it has `k` entries, each a latent-column index `< k`, but not
necessarily distinct), and `class_balance` / `cond_probs` are `p_y` and `cps`
read at those raw indices — for `cond_probs` along the *source* axis. -/
theorem colOrder_is_source_argmax_row (k o m : ℕ)
    (q : Fin m → Fin (k + o) → Fin k → ℚ) (r : Fin k → ℚ)
    (hm : 0 < m) (hk : 0 < k) :
    (∃ i : Fin m, colOrder k o m q r = argmaxRow k o m q r i) ∧
    (colOrder k o m q r).length = k ∧
    (∀ x ∈ colOrder k o m q r, x < k) ∧
    class_balance k o m q r = (colOrder k o m q r).map (p_yNat k o m q) ∧
    cond_probs k o m q r = (colOrder k o m q r).map (cpsNat k o m q r) := by
  have hmem := colOrder_mem_rowsList k o m q r hm
  unfold rowsList at hmem
  obtain ⟨i, -, hi⟩ := List.mem_map.mp hmem
  refine ⟨⟨i, hi.symm⟩, ?_, ?_, rfl, rfl⟩
  · rw [← hi]
    exact argmaxRow_length k o m q r i
  · rw [← hi]
    exact argmaxRow_entries_lt k o m q r i hk

/-- Witness for C5 (amended) at `k = 1`, `o = 0`, `m = 1`, `q ≡ 1`, `r ≡ 1`. -/
theorem colOrder_is_source_argmax_row_witness :
    (∃ i : Fin 1, colOrder 1 0 1 (fun _ _ _ => (1 : ℚ)) (fun _ => 1)
      = argmaxRow 1 0 1 (fun _ _ _ => (1 : ℚ)) (fun _ => 1) i) ∧
    (colOrder 1 0 1 (fun _ _ _ => (1 : ℚ)) (fun _ => 1)).length = 1 ∧
    (∀ x ∈ colOrder 1 0 1 (fun _ _ _ => (1 : ℚ)) (fun _ => 1), x < 1) ∧
    class_balance 1 0 1 (fun _ _ _ => (1 : ℚ)) (fun _ => 1)
      = (colOrder 1 0 1 (fun _ _ _ => (1 : ℚ)) (fun _ => 1)).map
          (p_yNat 1 0 1 (fun _ _ _ => (1 : ℚ))) ∧
    cond_probs 1 0 1 (fun _ _ _ => (1 : ℚ)) (fun _ => 1)
      = (colOrder 1 0 1 (fun _ _ _ => (1 : ℚ)) (fun _ => 1)).map
          (cpsNat 1 0 1 (fun _ _ _ => (1 : ℚ)) (fun _ => 1)) :=
  colOrder_is_source_argmax_row 1 0 1 (fun _ _ _ => 1) (fun _ => 1)
    (by norm_num) (by norm_num)

/-- Witness for C10 at `k = 1`, `o = 0`, `m = 1`, `q ≡ 1`, `r ≡ 1`. -/
theorem colOrder_plurality_lexmin_witness :
    colOrder 1 0 1 (fun _ _ _ => (1 : ℚ)) (fun _ => 1)
      ∈ rowsList 1 0 1 (fun _ _ _ => (1 : ℚ)) (fun _ => 1) ∧
    (∀ row ∈ rowsList 1 0 1 (fun _ _ _ => (1 : ℚ)) (fun _ => 1),
      (rowsList 1 0 1 (fun _ _ _ => (1 : ℚ)) (fun _ => 1)).count row ≤
        (rowsList 1 0 1 (fun _ _ _ => (1 : ℚ)) (fun _ => 1)).count
          (colOrder 1 0 1 (fun _ _ _ => (1 : ℚ)) (fun _ => 1))) ∧
    (∀ row ∈ rowsList 1 0 1 (fun _ _ _ => (1 : ℚ)) (fun _ => 1),
      (rowsList 1 0 1 (fun _ _ _ => (1 : ℚ)) (fun _ => 1)).count row =
        (rowsList 1 0 1 (fun _ _ _ => (1 : ℚ)) (fun _ => 1)).count
          (colOrder 1 0 1 (fun _ _ _ => (1 : ℚ)) (fun _ => 1)) →
      lexLe (colOrder 1 0 1 (fun _ _ _ => (1 : ℚ)) (fun _ => 1)) row = true) :=
  colOrder_plurality_lexmin 1 0 1 (fun _ _ _ => 1) (fun _ => 1) (by norm_num)

/-- Counterexample to C1: with `k = 2`, no abstains, a single source and the
fitted value `q ≡ 1` (so `p_y ≡ 8` with cube roots `r ≡ 2`), the stored
`class_balance` is `[8, 8]`: its sum is `16 ≠ 1` and its entries exceed `1`.
The decode step applies no normalization to the fitted `Q`. -/
theorem class_balance_not_normalized_cex :
    (∀ y, 0 < (fun _ : Fin 2 => (2 : ℚ)) y ∧
      (fun _ : Fin 2 => (2 : ℚ)) y ^ 3 = p_y 2 0 1 (fun _ _ _ => (1 : ℚ)) y) ∧
    (class_balance 2 0 1 (fun _ _ _ => (1 : ℚ)) (fun _ => 2)).sum = 16 ∧
    (∃ p ∈ class_balance 2 0 1 (fun _ _ _ => (1 : ℚ)) (fun _ => 2), 1 < p) := by
  have hpy : ∀ y, p_y 2 0 1 (fun _ _ _ => (1 : ℚ)) y = 8 := by
    intro y
    simp [p_y, colsum, Fin.sum_univ_two]
    norm_num
  have hrows : rowsList 2 0 1 (fun _ _ _ => (1 : ℚ)) (fun _ => 2) = [[0, 0]] := by
    have hcps : ∀ i v y, cps 2 0 1 (fun _ _ _ => (1 : ℚ)) (fun _ => 2) i v y
        = 1 / 2 := by
      intro i v y
      fin_cases y <;> simp [cps, diagInv, Fin.sum_univ_two, Fin.ext_iff]
    have hfr2 : List.finRange 2 = [0, 1] := rfl
    have hfr1 : List.finRange 1 = [0] := rfl
    simp [rowsList, argmaxRow, hcps, hfr1, hfr2, firstMaxIdx]
  have hco : colOrder 2 0 1 (fun _ _ _ => (1 : ℚ)) (fun _ => 2) = [0, 0] := by
    simp only [colOrder, countsList, uniqueRows, hrows]
    decide
  have hcb : class_balance 2 0 1 (fun _ _ _ => (1 : ℚ)) (fun _ => 2) = [8, 8] := by
    unfold class_balance
    rw [hco]
    simp [p_yNat, hpy]
  refine ⟨fun y => ⟨by norm_num, by rw [hpy y]; norm_num⟩, ?_, ?_⟩
  · rw [hcb]; norm_num
  · rw [hcb]; exact ⟨8, by norm_num⟩

/-- C1 (amended): the decode step normalizes nothing, so the spec's output
guarantee holds only under exact-factorization side conditions: if every
source has the same column masses `s y` (all positive, cubes summing to `1`),
`r` is the cube root of `p_y`, the derived column order is duplicate-free, and
`k ≤ m` (so the source-axis indexing `cps[col_order]` is in range), then
`class_balance` sums to `1` with entries in `[0, 1]`, and every stored
`cond_probs` matrix has value-slices summing to `1` for each column `y`. -/
theorem decode_normalized_under_exact_factorization (k o m : ℕ)
    (q : Fin m → Fin (k + o) → Fin k → ℚ) (r s : Fin k → ℚ)
    (hm : 0 < m) (hkm : k ≤ m)
    (hs : ∀ i y, colsum k o m q i y = s y)
    (hr : ∀ y, 0 < r y ∧ r y ^ 3 = p_y k o m q y)
    (hsum : (∑ y : Fin k, s y ^ 3) = 1)
    (hnodup : (colOrder k o m q r).Nodup) :
    (class_balance k o m q r).sum = 1 ∧
    (∀ p ∈ class_balance k o m q r, 0 ≤ p ∧ p ≤ 1) ∧
    (∀ mat ∈ cond_probs k o m q r, ∀ y : Fin k,
      (∑ v : Fin (k + o), mat v y) = 1) := by
  have hk : 0 < k := by
    rcases Nat.eq_zero_or_pos k with hk0 | hk0
    · exfalso
      subst hk0
      simp at hsum
    · exact hk0
  have hpy : ∀ y, p_y k o m q y = s y ^ 3 := by
    intro y
    unfold p_y
    rw [Finset.sum_congr rfl fun i _ => by rw [hs i y]]
    rw [Finset.sum_const, Finset.card_univ, Fintype.card_fin, nsmul_eq_mul]
    exact mul_div_cancel_left₀ _ (by exact_mod_cast hm.ne')
  have hrs : ∀ y, r y = s y := by
    intro y
    have h3 : r y ^ 3 = s y ^ 3 := (hr y).2.trans (hpy y)
    have hodd : Odd 3 := ⟨1, by norm_num⟩
    exact hodd.strictMono_pow.injective h3
  have hspos : ∀ y, 0 < s y := fun y => hrs y ▸ (hr y).1
  have hmem := colOrder_mem_rowsList k o m q r hm
  unfold rowsList at hmem
  obtain ⟨i₀, -, hi₀⟩ := List.mem_map.mp hmem
  have hlen : (colOrder k o m q r).length = k := by
    rw [← hi₀]
    exact argmaxRow_length k o m q r i₀
  have hbound : ∀ x ∈ colOrder k o m q r, x < k := by
    rw [← hi₀]
    exact argmaxRow_entries_lt k o m q r i₀ hk
  have hpyNat : ∀ x (hx : x < k), p_yNat k o m q x = s ⟨x, hx⟩ ^ 3 := by
    intro x hx
    unfold p_yNat
    rw [dif_pos hx, hpy]
  constructor
  · -- class_balance sums to 1
    have hcard : (colOrder k o m q r).toFinset.card = k := by
      rw [List.toFinset_card_of_nodup hnodup, hlen]
    have hsub : (colOrder k o m q r).toFinset ⊆ Finset.range k := fun x hx =>
      Finset.mem_range.mpr (hbound x (List.mem_toFinset.mp hx))
    have hfin : (colOrder k o m q r).toFinset = Finset.range k :=
      Finset.eq_of_subset_of_card_le hsub (by rw [hcard, Finset.card_range])
    unfold class_balance
    rw [← List.sum_toFinset _ hnodup, hfin]
    rw [← Fin.sum_univ_eq_sum_range (fun x => p_yNat k o m q x)]
    calc (∑ y : Fin k, p_yNat k o m q (y : ℕ))
        = ∑ y : Fin k, s y ^ 3 := by
          refine Finset.sum_congr rfl fun y _ => ?_
          rw [hpyNat y y.isLt]
      _ = 1 := hsum
  constructor
  · -- entries in [0, 1]
    intro p hp
    unfold class_balance at hp
    obtain ⟨x, hx, hpx⟩ := List.mem_map.mp hp
    have hxk := hbound x hx
    rw [← hpx, hpyNat x hxk]
    constructor
    · exact pow_nonneg (hspos ⟨x, hxk⟩).le 3
    · calc s ⟨x, hxk⟩ ^ 3 ≤ ∑ y : Fin k, s y ^ 3 :=
          Finset.single_le_sum (f := fun y => s y ^ 3)
            (fun y _ => pow_nonneg (hspos y).le 3) (Finset.mem_univ _)
        _ = 1 := hsum
  · -- cond_probs value-slices sum to 1
    intro mat hmat y
    unfold cond_probs at hmat
    obtain ⟨x, hx, hmx⟩ := List.mem_map.mp hmat
    have hxm : x < m := lt_of_lt_of_le (hbound x hx) hkm
    rw [← hmx]
    unfold cpsNat
    rw [dif_pos hxm]
    calc (∑ v : Fin (k + o), cps k o m q r ⟨x, hxm⟩ v y)
        = ∑ v : Fin (k + o), q ⟨x, hxm⟩ v y / r y :=
          Finset.sum_congr rfl fun v _ => cps_eq_div k o m q r _ v y
      _ = (∑ v : Fin (k + o), q ⟨x, hxm⟩ v y) / r y := by
          rw [Finset.sum_div]
      _ = s y / s y := by rw [← hrs y]; rw [show (∑ v : Fin (k + o),
            q ⟨x, hxm⟩ v y) = colsum k o m q ⟨x, hxm⟩ y from rfl, hs, hrs]
      _ = 1 := div_self (hspos y).ne'

/-- Witness for C1 (amended) at `k = 1`, `o = 0`, `m = 1`, `q ≡ 1`,
`r = s ≡ 1`: the side conditions hold and the outputs are normalized. -/
theorem decode_normalized_under_exact_factorization_witness :
    (class_balance 1 0 1 (fun _ _ _ => (1 : ℚ)) (fun _ => 1)).sum = 1 ∧
    (∀ p ∈ class_balance 1 0 1 (fun _ _ _ => (1 : ℚ)) (fun _ => 1),
      0 ≤ p ∧ p ≤ 1) ∧
    (∀ mat ∈ cond_probs 1 0 1 (fun _ _ _ => (1 : ℚ)) (fun _ => 1),
      ∀ y : Fin 1, (∑ v : Fin (1 + 0), mat v y) = 1) := by
  have hrows : rowsList 1 0 1 (fun _ _ _ => (1 : ℚ)) (fun _ => 1) = [[0]] := by
    have hcps : ∀ i v y, cps 1 0 1 (fun _ _ _ => (1 : ℚ)) (fun _ => 1) i v y
        = 1 := by
      intro i v y
      fin_cases y <;> simp [cps, diagInv, Fin.sum_univ_one]
    have hfr1 : List.finRange 1 = [0] := rfl
    simp [rowsList, argmaxRow, hcps, hfr1, firstMaxIdx]
  have hnodup : (colOrder 1 0 1 (fun _ _ _ => (1 : ℚ)) (fun _ => 1)).Nodup := by
    have hco : colOrder 1 0 1 (fun _ _ _ => (1 : ℚ)) (fun _ => 1) = [0] := by
      simp only [colOrder, countsList, uniqueRows, hrows]
      decide
    rw [hco]
    decide
  exact decode_normalized_under_exact_factorization 1 0 1
    (fun _ _ _ => 1) (fun _ => 1) (fun _ => 1)
    (by norm_num) (by norm_num)
    (fun i y => by simp [colsum, Fin.sum_univ_one])
    (fun y => ⟨by norm_num, by simp [p_y, colsum, Fin.sum_univ_one]⟩)
    (by simp [Fin.sum_univ_one])
    hnodup
